import Mathlib

set_option autoImplicit false

/-
Verification development for the `pj` repository (a parallel filesystem
search for directories containing a "sentinel" entry).

The development shallowly embeds the three source files:

* `src/sync_reader.rs` — the two `SyncStream` queue implementations
  (`MutexSyncStream`, `SwapSyncStream`).  All shared state of
  `MutexSyncStream` is accessed under one mutex, so a concurrent execution
  is a sequence of atomic critical sections; each critical section is one
  step of a labelled transition system (`MStep`).  A `get` call is split at
  its blocking points: `enter…` steps model the critical section from lock
  acquisition (which increments `waiting_count`) to the first return or
  `wait`, and `wake…` steps model the critical section from a (possibly
  spurious) condition-variable wake-up to the next return or `wait` — in
  the Rust source the loop body runs at most once per lock acquisition,
  because every branch either returns or waits.  `SwapSyncStream` is
  embedded the same way (`SStep`); its `get` holds the read lock for a
  whole loop iteration and touches the write buffer at most once inside
  it, so a read-side critical section is again one atomic step.  Ghost
  fields `inserted`/`delivered` record the values passed to `put`/`extend`
  and the values returned by successful `get`s.  A Rust `panic!` is
  modelled as an `Except.error` carrying the panic message (for `put` /
  `extend` / `is_stalled`), or as a `panicked` outcome of the critical
  section's check; the transition system has no step for a panicking
  critical section.
* `src/worker.rs` — `WorkTarget::exceeds_depth` and the per-work-item body
  of `finder_worker` (`finderScan`/`finderStep`), over an abstract
  directory listing.  A listing is `Option (List (Option FsEntry))`:
  `none` = `read_dir` failed, an inner `none` = a per-entry read error
  (dropped by `filter_map(|e| e.ok())`).  An entry's `name : Option String`
  is `none` when the OS string is not valid UTF-8 (`to_str` fails), and
  `isDir : Option Bool` is `none` when `metadata()` fails (the source uses
  `unwrap_or(false)`).  The compiled regex is abstracted as the `Bool`
  predicate `Pattern` holding of exactly the strings (slices) the pattern
  matches; `regex::Regex::is_match` reports a match *anywhere* in the
  haystack, so it is embedded as "some contiguous substring satisfies the
  pattern" (`regexIsMatch`).  The whole search is the transition system
  `FStep`/`FReach` over a pending multiset of work items.
* `src/main.rs` — the older `SearchPool` backend: `get_candidate`'s
  critical-section check (`poolGetCheck`) and the per-path body of
  `worker` (`mainScan`/`mainWorkerStep`).  In `main.rs` a failing
  `read_dir()?` or `is_target(..)?` propagates an error out of `worker`,
  which the spawned thread `unwrap()`s (a panic), which
  `find_sentinel_dirs` turns into a fatal error: outcome `MainOutcome.fatal`.

Vectors are represented with the most recently pushed element first
(`Vec::push` = `cons`, `Vec::pop` = head), which preserves the
push/pop discipline of the source; buffer order is never observable
through the claims (they are stated up to multisets).
-/

/-! ## The queue state (`src/sync_reader.rs`) -/

/-- Where a worker thread stands with respect to the `get` protocol:
outside `get` (it may call `put`/`extend`), blocked in
`state_change.wait` inside `get`, or finished (`get` returned `None`;
a worker makes no further calls afterwards). -/
inductive TStatus : Type where
  | idle
  | waitingS
  | finished
deriving DecidableEq

/-- Threads counted by `waiting_count`: those inside `get` (blocked) and
those to which `get` already returned `None` (the stall branch does not
decrement). -/
def nonIdle : TStatus → Bool
  | .idle => false
  | _ => true

/-- The kind of condition-variable wake-up a critical section performs:
`notify_one` or `notify_all`. -/
inductive Wake : Type where
  | one
  | all
deriving DecidableEq

/-- `MutexSyncStreamState::is_stalled` (sync_reader.rs:79-84): panics
(`Except.error`) when `waiting_count > thread_count`, otherwise reports
`waiting_count >= thread_count`. -/
def isStalledChecked (waitingCount threadCount : Nat) : Except String Bool :=
  if waitingCount > threadCount then
    Except.error "waiting count > thread count, should be impossible"
  else
    Except.ok (decide (waitingCount ≥ threadCount))

/-- Shared state of `MutexSyncStream` plus ghost history fields.
`elements` holds the buffered items, most recently pushed first. -/
structure MConf (α : Type) : Type where
  threadCount : Nat
  waitingCount : Nat
  elements : List α
  threads : List TStatus
  inserted : List α
  delivered : List α

/-- What one body of the `get` loop does once the lock is held
(sync_reader.rs:39-48): pop when the buffer is non-empty, return `None`
after a `notify_all` when stalled, otherwise wait; `is_stalled` may panic. -/
inductive GetCheck (α : Type) : Type where
  | got (v : α) (rest : List α)
  | stalledNone (wk : Wake)
  | sleep
  | panicked (msg : String)

/-- The `get` loop body of `MutexSyncStream` (sync_reader.rs:39-48),
evaluated with the `waiting_count` current in that critical section. -/
def mutexGetCheck {α : Type} (threadCount waitingCount : Nat) (elements : List α) :
    GetCheck α :=
  match elements with
  | v :: rest => .got v rest
  | [] =>
    match isStalledChecked waitingCount threadCount with
    | .error m => .panicked m
    | .ok true => .stalledNone .all
    | .ok false => .sleep

/-- `MutexSyncStream::put` (sync_reader.rs:51-59): panic when
`is_stalled()` panics or holds, otherwise push the value (and
`notify_one`, not modelled: wake-ups are already free in the step
relation). The ghost `inserted` records the value. -/
def mutexPut {α : Type} (c : MConf α) (v : α) : Except String (MConf α) :=
  match isStalledChecked c.waitingCount c.threadCount with
  | .error m => .error m
  | .ok true => .error "attempted to write to stream after it was closed"
  | .ok false => .ok { c with elements := v :: c.elements, inserted := v :: c.inserted }

/-- `MutexSyncStream::extend` (sync_reader.rs:61-69): same stall check,
then `Vec::extend` (push each value in order, so the last value of `vs`
ends on top) and `notify_all`. -/
def mutexExtend {α : Type} (c : MConf α) (vs : List α) : Except String (MConf α) :=
  match isStalledChecked c.waitingCount c.threadCount with
  | .error m => .error m
  | .ok true => .error "attempted to write to stream after it was closed"
  | .ok false =>
      .ok { c with elements := vs.reverse ++ c.elements,
                   inserted := vs.reverse ++ c.inserted }

/-- Trace labels: which public operation a critical section belongs to.
All critical sections of one `get` call share the label `getL`. -/
inductive QLabel (α : Type) : Type where
  | putL (v : α)
  | extendL (vs : List α)
  | getL

/-- One atomic critical section of `MutexSyncStream`.  Thread identity is
carried by the surgery `threads = l₁ ++ status :: l₂`.  `enter…` steps are
the first critical section of a `get` call (only a thread outside `get`
can call `get`; the section increments `waiting_count` before checking),
`wake…` steps are a later critical section of a blocked thread.  A
critical section whose check panics has no step. -/
inductive MStep {α : Type} : MConf α → QLabel α → MConf α → Prop where
  | put (c : MConf α) (v : α) (c' : MConf α)
      (h : mutexPut c v = .ok c') :
      MStep c (.putL v) c'
  | extendStep (c : MConf α) (vs : List α) (c' : MConf α)
      (h : mutexExtend c vs = .ok c') :
      MStep c (.extendL vs) c'
  | enterGot (c : MConf α) (l₁ l₂ : List TStatus) (v : α) (rest : List α)
      (hth : c.threads = l₁ ++ TStatus.idle :: l₂)
      (hchk : mutexGetCheck c.threadCount (c.waitingCount + 1) c.elements = .got v rest) :
      MStep c .getL { c with elements := rest, delivered := v :: c.delivered }
  | enterNone (c : MConf α) (l₁ l₂ : List TStatus) (wk : Wake)
      (hth : c.threads = l₁ ++ TStatus.idle :: l₂)
      (hchk : mutexGetCheck c.threadCount (c.waitingCount + 1) c.elements = .stalledNone wk) :
      MStep c .getL { c with waitingCount := c.waitingCount + 1,
                             threads := l₁ ++ TStatus.finished :: l₂ }
  | enterSleep (c : MConf α) (l₁ l₂ : List TStatus)
      (hth : c.threads = l₁ ++ TStatus.idle :: l₂)
      (hchk : mutexGetCheck c.threadCount (c.waitingCount + 1) c.elements = .sleep) :
      MStep c .getL { c with waitingCount := c.waitingCount + 1,
                             threads := l₁ ++ TStatus.waitingS :: l₂ }
  | wakeGot (c : MConf α) (l₁ l₂ : List TStatus) (v : α) (rest : List α)
      (hth : c.threads = l₁ ++ TStatus.waitingS :: l₂)
      (hchk : mutexGetCheck c.threadCount c.waitingCount c.elements = .got v rest) :
      MStep c .getL { c with waitingCount := c.waitingCount - 1, elements := rest,
                             delivered := v :: c.delivered,
                             threads := l₁ ++ TStatus.idle :: l₂ }
  | wakeNone (c : MConf α) (l₁ l₂ : List TStatus) (wk : Wake)
      (hth : c.threads = l₁ ++ TStatus.waitingS :: l₂)
      (hchk : mutexGetCheck c.threadCount c.waitingCount c.elements = .stalledNone wk) :
      MStep c .getL { c with threads := l₁ ++ TStatus.finished :: l₂ }
  | wakeSleep (c : MConf α) (l₁ l₂ : List TStatus)
      (hth : c.threads = l₁ ++ TStatus.waitingS :: l₂)
      (hchk : mutexGetCheck c.threadCount c.waitingCount c.elements = .sleep) :
      MStep c .getL c

/-- A finite interleaved execution of `MutexSyncStream` critical sections. -/
inductive MTrace {α : Type} : MConf α → List (QLabel α) → MConf α → Prop where
  | nil (c : MConf α) : MTrace c [] c
  | cons (c : MConf α) (l : QLabel α) (c' : MConf α) (ls : List (QLabel α)) (c'' : MConf α)
      (h : MStep c l c') (ht : MTrace c' ls c'') : MTrace c (l :: ls) c''

/-- `MutexSyncStream::with_threads` (sync_reader.rs:29-34, 86-92), together
with `workers` worker threads none of which has called the stream yet. -/
def mInit (α : Type) (threadCount workers : Nat) : MConf α :=
  { threadCount := threadCount
    waitingCount := 0
    elements := []
    threads := List.replicate workers TStatus.idle
    inserted := []
    delivered := [] }

/-! ## The double-buffer stream (`SwapSyncStream`, sync_reader.rs:95-157) -/

/-- Shared state of `SwapSyncStream` plus ghost history fields:
the read-side state (`read_state`: buffer, waiting count, thread count)
and the write-side buffer (`write_state`), each list most recently pushed
first. -/
structure SConf (α : Type) : Type where
  threadCount : Nat
  waitingCount : Nat
  readElems : List α
  writeElems : List α
  threads : List TStatus
  inserted : List α
  delivered : List α

/-- Outcome of one body of `SwapSyncStream::get`'s loop: a pop (possibly
after draining the write buffer, so it reports the resulting buffers),
a stall (`notify_all`, return `None`), a wait, or a panic. -/
inductive SGetCheck (α : Type) : Type where
  | got (v : α) (readRest writeRest : List α)
  | stalledNone (wk : Wake)
  | sleep
  | panicked (msg : String)

/-- The `get` loop body of `SwapSyncStream` (sync_reader.rs:117-133).
When the read buffer is empty and the stream is stalled, the write lock
is taken: an empty write buffer means a true stall (`notify_all`, return
`None`); otherwise `drain_extend` pushes the write buffer's items in
order onto the read buffer — in the most-recent-first representation the
read buffer (empty in this branch) becomes `writeElems.reverse` — the
loop `continue`s under the same read lock, finds the buffer non-empty
and pops.  `writeElems.reverse = []` holds exactly when
`write_state.len() == 0`. -/
def swapGetCheck {α : Type} (threadCount waitingCount : Nat) (readElems writeElems : List α) :
    SGetCheck α :=
  match readElems with
  | v :: rest => .got v rest writeElems
  | [] =>
    match isStalledChecked waitingCount threadCount with
    | .error m => .panicked m
    | .ok false => .sleep
    | .ok true =>
      match writeElems.reverse with
      | [] => .stalledNone .all
      | v :: rest => .got v rest []

/-- `SwapSyncStream::put` (sync_reader.rs:136-139): push onto the write
buffer under the write lock; no stall check, no panic, no wake-up. -/
def swapPut {α : Type} (c : SConf α) (v : α) : SConf α :=
  { c with writeElems := v :: c.writeElems, inserted := v :: c.inserted }

/-- `SwapSyncStream::extend` (sync_reader.rs:141-144): `Vec::extend` of the
write buffer under the write lock. -/
def swapExtend {α : Type} (c : SConf α) (vs : List α) : SConf α :=
  { c with writeElems := vs.reverse ++ c.writeElems,
           inserted := vs.reverse ++ c.inserted }

/-- One atomic critical section of `SwapSyncStream`: a `put`/`extend`
(write lock only), or one read-side loop iteration of `get` (read lock
held throughout; the write buffer is consulted at most once inside it). -/
inductive SStep {α : Type} : SConf α → QLabel α → SConf α → Prop where
  | put (c : SConf α) (v : α) : SStep c (.putL v) (swapPut c v)
  | extendStep (c : SConf α) (vs : List α) : SStep c (.extendL vs) (swapExtend c vs)
  | enterGot (c : SConf α) (l₁ l₂ : List TStatus) (v : α) (readRest writeRest : List α)
      (hth : c.threads = l₁ ++ TStatus.idle :: l₂)
      (hchk : swapGetCheck c.threadCount (c.waitingCount + 1) c.readElems c.writeElems
        = .got v readRest writeRest) :
      SStep c .getL { c with readElems := readRest, writeElems := writeRest,
                             delivered := v :: c.delivered }
  | enterNone (c : SConf α) (l₁ l₂ : List TStatus) (wk : Wake)
      (hth : c.threads = l₁ ++ TStatus.idle :: l₂)
      (hchk : swapGetCheck c.threadCount (c.waitingCount + 1) c.readElems c.writeElems
        = .stalledNone wk) :
      SStep c .getL { c with waitingCount := c.waitingCount + 1,
                             threads := l₁ ++ TStatus.finished :: l₂ }
  | enterSleep (c : SConf α) (l₁ l₂ : List TStatus)
      (hth : c.threads = l₁ ++ TStatus.idle :: l₂)
      (hchk : swapGetCheck c.threadCount (c.waitingCount + 1) c.readElems c.writeElems
        = .sleep) :
      SStep c .getL { c with waitingCount := c.waitingCount + 1,
                             threads := l₁ ++ TStatus.waitingS :: l₂ }
  | wakeGot (c : SConf α) (l₁ l₂ : List TStatus) (v : α) (readRest writeRest : List α)
      (hth : c.threads = l₁ ++ TStatus.waitingS :: l₂)
      (hchk : swapGetCheck c.threadCount c.waitingCount c.readElems c.writeElems
        = .got v readRest writeRest) :
      SStep c .getL { c with waitingCount := c.waitingCount - 1,
                             readElems := readRest, writeElems := writeRest,
                             delivered := v :: c.delivered,
                             threads := l₁ ++ TStatus.idle :: l₂ }
  | wakeNone (c : SConf α) (l₁ l₂ : List TStatus) (wk : Wake)
      (hth : c.threads = l₁ ++ TStatus.waitingS :: l₂)
      (hchk : swapGetCheck c.threadCount c.waitingCount c.readElems c.writeElems
        = .stalledNone wk) :
      SStep c .getL { c with threads := l₁ ++ TStatus.finished :: l₂ }
  | wakeSleep (c : SConf α) (l₁ l₂ : List TStatus)
      (hth : c.threads = l₁ ++ TStatus.waitingS :: l₂)
      (hchk : swapGetCheck c.threadCount c.waitingCount c.readElems c.writeElems
        = .sleep) :
      SStep c .getL c

/-- A finite interleaved execution of `SwapSyncStream` critical sections. -/
inductive STrace {α : Type} : SConf α → List (QLabel α) → SConf α → Prop where
  | nil (c : SConf α) : STrace c [] c
  | cons (c : SConf α) (l : QLabel α) (c' : SConf α) (ls : List (QLabel α)) (c'' : SConf α)
      (h : SStep c l c') (ht : STrace c' ls c'') : STrace c (l :: ls) c''

/-- `SwapSyncStream::with_threads` (sync_reader.rs:106-112) with `workers`
worker threads that have not yet called the stream. -/
def sInit (α : Type) (threadCount workers : Nat) : SConf α :=
  { threadCount := threadCount
    waitingCount := 0
    readElems := []
    writeElems := []
    threads := List.replicate workers TStatus.idle
    inserted := []
    delivered := [] }

/-! ## The `SearchPool` queue of `src/main.rs` -/

/-- Outcome of one critical section of `SearchPool::get_candidate`. -/
inductive PGetCheck (α : Type) : Type where
  | got (v : α) (rest : List α)
  | stalledNone (wk : Wake)
  | sleep
deriving DecidableEq

/-- One critical section of `SearchPool::get_candidate` (main.rs:29-44),
evaluated with the waiting count current in that section (the call
increments it on entry).  While `waiting < num_cpus` and the candidate
buffer is empty the thread waits; once the loop exits, a non-empty buffer
is popped (decrementing the count), and otherwise the stall branch does a
single `notify_one` — not a broadcast — and returns `None`. -/
def poolGetCheck {α : Type} (ncpus waitingCount : Nat) (candidates : List α) :
    PGetCheck α :=
  if waitingCount < ncpus ∧ candidates.length = 0 then .sleep
  else
    match candidates with
    | v :: rest => .got v rest
    | [] => .stalledNone .one

/-! ## The traversal worker (`src/worker.rs`) and the `main.rs` worker -/

/-- A filesystem path, as its components below some root. -/
abbrev DirPath := List String

/-- `WorkItem` (worker.rs:10-13): a directory to scan and its depth
below the search root. -/
structure WItem : Type where
  path : DirPath
  depth : Nat
deriving DecidableEq

/-- One directory entry as the worker observes it.  `name` is `none` when
`file_name().to_str()` fails (the OS string is not valid UTF-8); `isDir`
is `none` when the `metadata()` call fails. -/
structure FsEntry : Type where
  name : Option String
  isDir : Option Bool
deriving DecidableEq

/-- The result of listing a directory: `none` when `read_dir` itself
fails; an inner `none` is a single entry whose read failed. -/
abbrev DirListing := Option (List (Option FsEntry))

/-- The compiled sentinel regex, abstracted by the predicate holding of
exactly the strings (slices) it matches.  No code in the repository
builds or anchors a `Regex` (the `Opt → WorkTarget` constructor is an
open TODO, worker.rs:8-9): `WorkTarget.sentinel_pattern` is a public
field, so the pattern is whatever the caller compiled. -/
abbrev Pattern := String → Bool

/-- All contiguous substrings of a string (with repetition). -/
def substrings (s : String) : List String :=
  (s.toList.tails.flatMap List.inits).map String.mk

/-- `regex::Regex::is_match` as used at worker.rs:49: true iff there is a
match for the pattern *anywhere* in the haystack, i.e. iff some
contiguous substring of the haystack satisfies the pattern. -/
def regexIsMatch (pat : Pattern) (hay : String) : Bool :=
  (substrings hay).any pat

/-- `WorkTarget::exceeds_depth` (worker.rs:22-30): never exceeded without
a configured max depth; with `Some max_depth`, exceeded iff
`depth > max_depth` (strict, so the root's children down to level
`max_depth` are still enqueued). -/
def exceedsDepth (maxDepth : Option Nat) (depth : Nat) : Bool :=
  match maxDepth with
  | none => false
  | some md => decide (depth > md)

/-- What processing one `WorkItem` in `finder_worker`'s loop does:
either the thread panics (an `expect` fires), or it prints some
containing-directory paths and enqueues some child work items. -/
inductive FOutcome : Type where
  | panicked (msg : String)
  | ok (printed : List DirPath) (enqueued : List WItem)
deriving DecidableEq

/-- The entry loop of `finder_worker` (worker.rs:44-61) over the surviving
entries, carrying the collected `candidate_subpaths`.  Per entry: decode
the name (`expect` panics on failure); on a sentinel match print the
*containing* directory's path, stop scanning and discard the candidates
(found_sentinel suppresses the extend); otherwise collect a child work
item when the entry is a directory (`metadata().map(is_dir).unwrap_or(false)`)
and the child's depth does not exceed the configured max. -/
def finderScan (pat : Pattern) (maxDepth : Option Nat) (item : WItem) :
    List FsEntry → List WItem → FOutcome
  | [], cands => .ok [] cands
  | e :: rest, cands =>
    match e.name with
    | none => .panicked "failed to convert OsStr -> str"
    | some nm =>
      if regexIsMatch pat nm then .ok [item.path] []
      else if (e.isDir.getD false) && !(exceedsDepth maxDepth (item.depth + 1)) then
        finderScan pat maxDepth item rest
          (cands ++ [{ path := item.path ++ [nm], depth := item.depth + 1 }])
      else finderScan pat maxDepth item rest cands

/-- The body of `finder_worker` for one dequeued `WorkItem`
(worker.rs:36-66): a failed `read_dir` is skipped (`continue`: nothing
printed, nothing enqueued); per-entry read errors are dropped by
`filter_map`; then the entries are scanned. -/
def finderStep (pat : Pattern) (maxDepth : Option Nat) (item : WItem)
    (listing : DirListing) : FOutcome :=
  match listing with
  | none => .ok [] []
  | some raw => finderScan pat maxDepth item (raw.filterMap id) []

/-- What processing one candidate path in `main.rs`'s `worker` does:
`fatal` when an `io::Result` error propagates out of `worker` (the
spawned thread `unwrap()`s it, main.rs:75, and `find_sentinel_dirs`
reports "worker thread panicked"); otherwise the recorded results and
the candidate sub-paths to enqueue. -/
inductive MainOutcome : Type where
  | fatal
  | ok (results : List DirPath) (enqueued : List DirPath)
deriving DecidableEq

/-- The sub-path loop of `main.rs`'s `worker` (main.rs:97-109).  Per
sub-path, `SearchPool::is_target` (main.rs:56-63) decodes the file name
(an undecodable name is an `io::Error`, which `?` propagates: fatal) and
compares it with the exact target string; on a match `put_result(sub_path)`
records the *entry's* path and the loop breaks; otherwise a directory
sub-path is collected as a candidate. -/
def mainScan (target : String) (dirPath : DirPath) :
    List FsEntry → List DirPath → MainOutcome
  | [], cands => .ok [] cands
  | e :: rest, cands =>
    match e.name with
    | none => .fatal
    | some nm =>
      if nm = target then .ok [dirPath ++ [nm]] []
      else if e.isDir.getD false then mainScan target dirPath rest (cands ++ [dirPath ++ [nm]])
      else mainScan target dirPath rest cands

/-- The body of `main.rs`'s `worker` for one candidate path
(main.rs:91-113): `read_dir()?` makes an unreadable directory fatal;
individual entry read errors are dropped by the `flat_map`; then the
sub-paths are scanned. -/
def mainWorkerStep (target : String) (dirPath : DirPath) (listing : DirListing) :
    MainOutcome :=
  match listing with
  | none => .fatal
  | some raw => mainScan target dirPath (raw.filterMap id) []

/-- State of the whole `finder_worker` search: the work items still
pending in the queue and the results printed so far, each paired with
the depth of the work item that printed it. -/
structure FinderConf : Type where
  pending : List WItem
  printed : List (DirPath × Nat)
deriving DecidableEq

/-- One worker iteration of the search (worker.rs:36-66) against the
immutable filesystem `fsys`: dequeue any pending item, run the body, and
enqueue the resulting children (`extend`, worker.rs:64).  A panicking
body has no step (the worker thread dies). -/
inductive FStep (fsys : DirPath → DirListing) (pat : Pattern) (maxDepth : Option Nat) :
    FinderConf → FinderConf → Prop where
  | process (c : FinderConf) (item : WItem) (pr : List DirPath) (enq : List WItem)
      (hmem : item ∈ c.pending)
      (hout : finderStep pat maxDepth item (fsys item.path) = .ok pr enq) :
      FStep fsys pat maxDepth c
        { pending := c.pending.erase item ++ enq,
          printed := c.printed ++ pr.map (fun p => (p, item.depth)) }

/-- Finitely many worker iterations. -/
inductive FReach (fsys : DirPath → DirListing) (pat : Pattern) (maxDepth : Option Nat) :
    FinderConf → FinderConf → Prop where
  | refl (c : FinderConf) : FReach fsys pat maxDepth c c
  | tail (a b c : FinderConf) (h : FReach fsys pat maxDepth a b)
      (hs : FStep fsys pat maxDepth b c) : FReach fsys pat maxDepth a c

/-! ## Helper lemmas about `is_stalled` and permutations -/

theorem isStalled_ok_false {w tc : Nat} (h : isStalledChecked w tc = .ok false) :
    w < tc := by
  unfold isStalledChecked at h
  split at h
  · exact absurd h (by simp)
  · next hng =>
    simp only [Except.ok.injEq] at h
    have := of_decide_eq_false h
    omega

theorem isStalled_ok_true {w tc : Nat} (h : isStalledChecked w tc = .ok true) :
    tc ≤ w ∧ w ≤ tc := by
  unfold isStalledChecked at h
  split at h
  · exact absurd h (by simp)
  · next hng =>
    simp only [Except.ok.injEq] at h
    have := of_decide_eq_true h
    omega

theorem isStalled_of_lt {w tc : Nat} (h : w < tc) :
    isStalledChecked w tc = .ok false := by
  unfold isStalledChecked
  have h1 : ¬ (w > tc) := by omega
  have h2 : decide (w ≥ tc) = false := decide_eq_false (by omega)
  simp [h1, h2]

theorem isStalled_error_of_stalled {w tc : Nat} (h : tc ≤ w) :
    ∃ m, isStalledChecked w tc = .error m ∨ isStalledChecked w tc = .ok true := by
  unfold isStalledChecked
  by_cases hgt : w > tc
  · exact ⟨"waiting count > thread count, should be impossible", by simp [hgt]⟩
  · refine ⟨"", Or.inr ?_⟩
    have h2 : decide (w ≥ tc) = true := decide_eq_true h
    simp [hgt, h2]

theorem perm_shift {α : Type} (d e i x : List α) (h : (d ++ e).Perm i) :
    (d ++ (x ++ e)).Perm (x ++ i) := by
  have h1 : d ++ (x ++ e) = (d ++ x) ++ e := (List.append_assoc d x e).symm
  rw [h1]
  have h2 : ((d ++ x) ++ e).Perm ((x ++ d) ++ e) :=
    (List.perm_append_comm : (d ++ x).Perm (x ++ d)).append_right e
  have h3 : (x ++ d) ++ e = x ++ (d ++ e) := List.append_assoc x d e
  rw [h3] at h2
  exact h2.trans (h.append_left x)

theorem perm_pop {α : Type} (d rest i : List α) (v : α)
    (h : (d ++ (v :: rest)).Perm i) : ((v :: d) ++ rest).Perm i := by
  have h1 : (v :: (d ++ rest)).Perm (d ++ (v :: rest)) := List.perm_middle.symm
  have h2 : (v :: d) ++ rest = v :: (d ++ rest) := by simp
  rw [h2]
  exact h1.trans h

theorem perm_shift_mid {α : Type} (d r w i x : List α)
    (h : (d ++ (r ++ w)).Perm i) : (d ++ (r ++ (x ++ w))).Perm (x ++ i) := by
  have inner : (r ++ (x ++ w)).Perm (x ++ (r ++ w)) := by
    have h1 : r ++ (x ++ w) = (r ++ x) ++ w := (List.append_assoc r x w).symm
    have h2 : ((r ++ x) ++ w).Perm ((x ++ r) ++ w) :=
      (List.perm_append_comm : (r ++ x).Perm (x ++ r)).append_right w
    have h3 : (x ++ r) ++ w = x ++ (r ++ w) := List.append_assoc x r w
    rw [h1, ← h3]
    exact h2
  exact (inner.append_left d).trans (perm_shift d (r ++ w) i x h)

theorem perm_pop_read {α : Type} (d r w i : List α) (v : α)
    (h : (d ++ ((v :: r) ++ w)).Perm i) : ((v :: d) ++ (r ++ w)).Perm i := by
  have h1 : d ++ ((v :: r) ++ w) = d ++ (v :: (r ++ w)) := by simp
  rw [h1] at h
  exact perm_pop d (r ++ w) i v h

theorem perm_pop_drain {α : Type} (d w rest i : List α) (v : α)
    (hrev : w.reverse = v :: rest) (h : (d ++ ([] ++ w)).Perm i) :
    ((v :: d) ++ (rest ++ [])).Perm i := by
  have hw : w.Perm (v :: rest) := by
    rw [← hrev]
    exact (List.reverse_perm w).symm
  have h0 : d ++ ([] ++ w) = d ++ w := by simp
  rw [h0] at h
  have h1 : (d ++ (v :: rest)).Perm i := ((hw.append_left d).symm).trans h
  have h2 : ((v :: d) ++ rest).Perm i := perm_pop d rest i v h1
  have h3 : (v :: d) ++ (rest ++ []) = (v :: d) ++ rest := by simp
  rw [h3]
  exact h2

/-! ## Invariants of `MutexSyncStream` -/

theorem mutexPut_ok {α : Type} {c : MConf α} {v : α} {c' : MConf α}
    (h : mutexPut c v = .ok c') :
    c.waitingCount < c.threadCount ∧
      c' = { c with elements := v :: c.elements, inserted := v :: c.inserted } := by
  unfold mutexPut at h
  cases hst : isStalledChecked c.waitingCount c.threadCount with
  | error m => rw [hst] at h; cases h
  | ok b =>
    rw [hst] at h
    cases b
    · simp only [Except.ok.injEq] at h
      exact ⟨isStalled_ok_false hst, h.symm⟩
    · cases h

theorem mutexExtend_ok {α : Type} {c : MConf α} {vs : List α} {c' : MConf α}
    (h : mutexExtend c vs = .ok c') :
    c.waitingCount < c.threadCount ∧
      c' = { c with elements := vs.reverse ++ c.elements,
                    inserted := vs.reverse ++ c.inserted } := by
  unfold mutexExtend at h
  cases hst : isStalledChecked c.waitingCount c.threadCount with
  | error m => rw [hst] at h; cases h
  | ok b =>
    rw [hst] at h
    cases b
    · simp only [Except.ok.injEq] at h
      exact ⟨isStalled_ok_false hst, h.symm⟩
    · cases h

theorem mutexGetCheck_got {α : Type} {tc w : Nat} {es : List α} {v : α} {rest : List α}
    (h : mutexGetCheck tc w es = .got v rest) : es = v :: rest := by
  cases es with
  | nil =>
    unfold mutexGetCheck at h
    cases hst : isStalledChecked w tc with
    | error m => rw [hst] at h; cases h
    | ok b => rw [hst] at h; cases b <;> cases h
  | cons a l =>
    unfold mutexGetCheck at h
    simp only [GetCheck.got.injEq] at h
    rw [h.1, h.2]

theorem mutexGetCheck_stalledNone {α : Type} {tc w : Nat} {es : List α} {wk : Wake}
    (h : mutexGetCheck tc w es = .stalledNone wk) :
    es = [] ∧ tc ≤ w ∧ w ≤ tc ∧ wk = Wake.all := by
  cases es with
  | nil =>
    unfold mutexGetCheck at h
    cases hst : isStalledChecked w tc with
    | error m => rw [hst] at h; cases h
    | ok b =>
      rw [hst] at h
      cases b
      · cases h
      · obtain ⟨h1, h2⟩ := isStalled_ok_true hst
        simp only [GetCheck.stalledNone.injEq] at h
        exact ⟨rfl, h1, h2, h.symm⟩
  | cons a l =>
    unfold mutexGetCheck at h
    cases h

theorem mutexGetCheck_sleep {α : Type} {tc w : Nat} {es : List α}
    (h : mutexGetCheck tc w es = .sleep) : es = [] ∧ w < tc := by
  cases es with
  | nil =>
    unfold mutexGetCheck at h
    cases hst : isStalledChecked w tc with
    | error m => rw [hst] at h; cases h
    | ok b =>
      rw [hst] at h
      cases b
      · exact ⟨rfl, isStalled_ok_false hst⟩
      · cases h
  | cons a l =>
    unfold mutexGetCheck at h
    cases h

theorem countP_split (l₁ l₂ : List TStatus) (s : TStatus) :
    (l₁ ++ s :: l₂).countP nonIdle
      = l₁.countP nonIdle + l₂.countP nonIdle + (if nonIdle s then 1 else 0) := by
  simp [List.countP_append, List.countP_cons]
  omega

/-- Global invariant of the mutex stream: `waiting_count` counts exactly
the threads inside `get` or finished; a stalled count means an empty
buffer; a finished thread means a stalled count; and the buffered and
delivered items together are exactly the inserted ones. -/
def mGood {α : Type} (c : MConf α) : Prop :=
  c.waitingCount = c.threads.countP nonIdle
  ∧ (c.threadCount ≤ c.waitingCount → c.elements = [])
  ∧ (TStatus.finished ∈ c.threads → c.threadCount ≤ c.waitingCount)
  ∧ (c.delivered ++ c.elements).Perm c.inserted

theorem mStep_preserve {α : Type} {c : MConf α} {l : QLabel α} {c' : MConf α}
    (hs : MStep c l c') (hg : mGood c) :
    mGood c' ∧ c'.threadCount = c.threadCount ∧ c'.threads.length = c.threads.length := by
  obtain ⟨ha, hb, hc, hd⟩ := hg
  cases hs with
  | put v c' h =>
    obtain ⟨hlt, rfl⟩ := mutexPut_ok h
    dsimp only
    refine ⟨⟨ha, ?_, ?_, ?_⟩, rfl, rfl⟩
    · dsimp only
      intro hwc
      exact absurd hwc (by omega)
    · dsimp only
      intro hfin
      have := hc hfin
      omega
    · exact perm_shift c.delivered c.elements c.inserted [v] hd
  | extendStep vs c' h =>
    obtain ⟨hlt, rfl⟩ := mutexExtend_ok h
    dsimp only
    refine ⟨⟨ha, ?_, ?_, ?_⟩, rfl, rfl⟩
    · dsimp only
      intro hwc
      exact absurd hwc (by omega)
    · dsimp only
      intro hfin
      have := hc hfin
      omega
    · exact perm_shift c.delivered c.elements c.inserted vs.reverse hd
  | enterGot l₁ l₂ v rest hth hchk =>
    have hes := mutexGetCheck_got hchk
    dsimp only
    refine ⟨⟨ha, ?_, hc, ?_⟩, rfl, rfl⟩
    · intro hwc
      rw [hes] at hb
      cases hb hwc
    · rw [hes] at hd
      exact perm_pop c.delivered rest c.inserted v hd
  | enterNone l₁ l₂ wk hth hchk =>
    obtain ⟨hes, h1, h2, _⟩ := mutexGetCheck_stalledNone hchk
    rw [hth, countP_split] at ha
    dsimp only
    refine ⟨⟨?_, ?_, ?_, hd⟩, rfl, ?_⟩
    · rw [countP_split]
      simp [nonIdle] at ha ⊢
      omega
    · intro _
      exact hes
    · intro _
      exact h1
    · rw [hth]
      simp
  | enterSleep l₁ l₂ hth hchk =>
    obtain ⟨hes, hlt⟩ := mutexGetCheck_sleep hchk
    rw [hth, countP_split] at ha
    dsimp only
    refine ⟨⟨?_, ?_, ?_, hd⟩, rfl, ?_⟩
    · rw [countP_split]
      simp [nonIdle] at ha ⊢
      omega
    · intro _
      exact hes
    · dsimp only
      intro hfin
      simp only [List.mem_append, List.mem_cons] at hfin
      have hfin' : TStatus.finished ∈ c.threads := by
        rw [hth]
        simp only [List.mem_append, List.mem_cons]
        rcases hfin with h | h | h
        · exact Or.inl h
        · cases h
        · exact Or.inr (Or.inr h)
      have := hc hfin'
      omega
    · rw [hth]
      simp
  | wakeGot l₁ l₂ v rest hth hchk =>
    have hes := mutexGetCheck_got hchk
    rw [hth, countP_split] at ha
    dsimp only
    refine ⟨⟨?_, ?_, ?_, ?_⟩, rfl, ?_⟩
    · rw [countP_split]
      simp [nonIdle] at ha ⊢
      omega
    · dsimp only
      intro hwc
      have hle : c.threadCount ≤ c.waitingCount := by omega
      rw [hes] at hb
      cases hb hle
    · intro hfin
      simp only [List.mem_append, List.mem_cons] at hfin
      have hfin' : TStatus.finished ∈ c.threads := by
        rw [hth]
        simp only [List.mem_append, List.mem_cons]
        rcases hfin with h | h | h
        · exact Or.inl h
        · cases h
        · exact Or.inr (Or.inr h)
      have hle := hc hfin'
      rw [hes] at hb
      cases hb hle
    · rw [hes] at hd
      exact perm_pop c.delivered rest c.inserted v hd
    · rw [hth]
      simp
  | wakeNone l₁ l₂ wk hth hchk =>
    obtain ⟨hes, h1, h2, _⟩ := mutexGetCheck_stalledNone hchk
    rw [hth, countP_split] at ha
    dsimp only
    refine ⟨⟨?_, ?_, ?_, hd⟩, rfl, ?_⟩
    · rw [countP_split]
      simp [nonIdle] at ha ⊢
      omega
    · intro _
      exact hes
    · intro _
      exact h1
    · rw [hth]
      simp
  | wakeSleep l₁ l₂ hth hchk =>
    exact ⟨⟨ha, hb, hc, hd⟩, rfl, rfl⟩

theorem mTrace_preserve {α : Type} {c : MConf α} {ls : List (QLabel α)} {c' : MConf α}
    (ht : MTrace c ls c') :
    mGood c →
      mGood c' ∧ c'.threadCount = c.threadCount ∧ c'.threads.length = c.threads.length := by
  induction ht with
  | nil c =>
    intro hg
    exact ⟨hg, rfl, rfl⟩
  | cons c l cm ls c'' h ht ih =>
    intro hg
    have h1 := mStep_preserve h hg
    have h2 := ih h1.1
    exact ⟨h2.1, h2.2.1.trans h1.2.1, h2.2.2.trans h1.2.2⟩

theorem countP_replicate_idle (n : Nat) :
    (List.replicate n TStatus.idle).countP nonIdle = 0 := by
  induction n with
  | zero => simp
  | succ k ih => simp [List.replicate_succ, List.countP_cons, nonIdle, ih]

theorem mInit_good (α : Type) (tc n : Nat) : mGood (mInit α tc n) := by
  refine ⟨?_, fun _ => rfl, ?_, by simp [mInit]⟩
  · simp [mInit, countP_replicate_idle]
  · intro h
    have := List.eq_of_mem_replicate h
    cases this

theorem countP_le_len (l : List TStatus) : l.countP nonIdle ≤ l.length := by
  induction l with
  | nil => simp
  | cons a t ih =>
    rw [List.countP_cons]
    cases ha : nonIdle a <;> simp [ha, List.length_cons] <;> omega

theorem countP_lt_of_idle_mem {l : List TStatus} (h : TStatus.idle ∈ l) :
    l.countP nonIdle < l.length := by
  obtain ⟨s, t, rfl⟩ := List.append_of_mem h
  rw [countP_split]
  have h1 := countP_le_len s
  have h2 := countP_le_len t
  simp only [nonIdle, List.length_append, List.length_cons, if_neg Bool.false_ne_true]
  omega

theorem mutexPut_error_of_stalled {α : Type} (c : MConf α) (v : α)
    (h : c.threadCount ≤ c.waitingCount) : ∃ m, mutexPut c v = .error m := by
  unfold mutexPut
  by_cases hgt : c.waitingCount > c.threadCount
  · refine ⟨"waiting count > thread count, should be impossible", ?_⟩
    have : isStalledChecked c.waitingCount c.threadCount
        = .error "waiting count > thread count, should be impossible" := by
      unfold isStalledChecked
      simp [hgt]
    rw [this]
  · refine ⟨"attempted to write to stream after it was closed", ?_⟩
    have : isStalledChecked c.waitingCount c.threadCount = .ok true := by
      unfold isStalledChecked
      simp [hgt]
      omega
    rw [this]

theorem mutexExtend_error_of_stalled {α : Type} (c : MConf α) (vs : List α)
    (h : c.threadCount ≤ c.waitingCount) : ∃ m, mutexExtend c vs = .error m := by
  unfold mutexExtend
  by_cases hgt : c.waitingCount > c.threadCount
  · refine ⟨"waiting count > thread count, should be impossible", ?_⟩
    have : isStalledChecked c.waitingCount c.threadCount
        = .error "waiting count > thread count, should be impossible" := by
      unfold isStalledChecked
      simp [hgt]
    rw [this]
  · refine ⟨"attempted to write to stream after it was closed", ?_⟩
    have : isStalledChecked c.waitingCount c.threadCount = .ok true := by
      unfold isStalledChecked
      simp [hgt]
      omega
    rw [this]

theorem mutexPut_error_stalled {α : Type} {c : MConf α} {v : α}
    (h : ∃ m, mutexPut c v = .error m) : c.threadCount ≤ c.waitingCount := by
  obtain ⟨m, hm⟩ := h
  unfold mutexPut at hm
  cases hst : isStalledChecked c.waitingCount c.threadCount with
  | error m' =>
    unfold isStalledChecked at hst
    split at hst
    · next hgt => omega
    · cases hst
  | ok b =>
    cases b
    · rw [hst] at hm
      cases hm
    · exact (isStalled_ok_true hst).1

theorem mutexExtend_error_stalled {α : Type} {c : MConf α} {vs : List α}
    (h : ∃ m, mutexExtend c vs = .error m) : c.threadCount ≤ c.waitingCount := by
  obtain ⟨m, hm⟩ := h
  unfold mutexExtend at hm
  cases hst : isStalledChecked c.waitingCount c.threadCount with
  | error m' =>
    unfold isStalledChecked at hst
    split at hst
    · next hgt => omega
    · cases hst
  | ok b =>
    cases b
    · rw [hst] at hm
      cases hm
    · exact (isStalled_ok_true hst).1

/-- Once a `get` on `MutexSyncStream` has returned `None` (some thread is
finished), every further critical section leaves the waiting count, the
buffer and the ghost histories unchanged — only further `None` returns
(`wakeNone`) and spurious wake-ups are possible. -/
def mStalledConf {α : Type} (c : MConf α) : Prop :=
  mGood c ∧ TStatus.finished ∈ c.threads

theorem mStep_stalled {α : Type} {c : MConf α} {l : QLabel α} {c' : MConf α}
    (hs : MStep c l c') (h : mStalledConf c) :
    mStalledConf c' ∧ c'.waitingCount = c.waitingCount ∧ c'.elements = c.elements
      ∧ c'.delivered = c.delivered ∧ c'.inserted = c.inserted
      ∧ c'.threadCount = c.threadCount := by
  obtain ⟨hg, hfin⟩ := h
  obtain ⟨ha, hb, hc, hd⟩ := hg
  have hstall : c.threadCount ≤ c.waitingCount := hc hfin
  have hempty : c.elements = [] := hb hstall
  cases hs with
  | put v c' h =>
    obtain ⟨hlt, _⟩ := mutexPut_ok h
    exfalso
    omega
  | extendStep vs c' h =>
    obtain ⟨hlt, _⟩ := mutexExtend_ok h
    exfalso
    omega
  | enterGot l₁ l₂ v rest hth hchk =>
    have hes := mutexGetCheck_got hchk
    rw [hempty] at hes
    cases hes
  | enterNone l₁ l₂ wk hth hchk =>
    obtain ⟨_, _, h2, _⟩ := mutexGetCheck_stalledNone hchk
    exfalso
    omega
  | enterSleep l₁ l₂ hth hchk =>
    obtain ⟨_, hlt⟩ := mutexGetCheck_sleep hchk
    exfalso
    omega
  | wakeGot l₁ l₂ v rest hth hchk =>
    have hes := mutexGetCheck_got hchk
    rw [hempty] at hes
    cases hes
  | wakeNone l₁ l₂ wk hth hchk =>
    have hs' := MStep.wakeNone c l₁ l₂ wk hth hchk
    have hg' := (mStep_preserve hs' ⟨ha, hb, hc, hd⟩).1
    exact ⟨⟨hg', by simp⟩, rfl, rfl, rfl, rfl, rfl⟩
  | wakeSleep l₁ l₂ hth hchk =>
    exact ⟨⟨⟨ha, hb, hc, hd⟩, hfin⟩, rfl, rfl, rfl, rfl, rfl⟩

theorem mTrace_stalled {α : Type} {c : MConf α} {ls : List (QLabel α)} {c' : MConf α}
    (ht : MTrace c ls c') :
    mStalledConf c →
      mStalledConf c' ∧ c'.waitingCount = c.waitingCount ∧ c'.elements = c.elements
        ∧ c'.delivered = c.delivered ∧ c'.inserted = c.inserted
        ∧ c'.threadCount = c.threadCount := by
  induction ht with
  | nil c =>
    intro h
    exact ⟨h, rfl, rfl, rfl, rfl, rfl⟩
  | cons c l cm ls c'' h ht ih =>
    intro hst
    have h1 := mStep_stalled h hst
    have h2 := ih h1.1
    refine ⟨h2.1, ?_, ?_, ?_, ?_, ?_⟩
    · rw [h2.2.1, h1.2.1]
    · rw [h2.2.2.1, h1.2.2.1]
    · rw [h2.2.2.2.1, h1.2.2.2.1]
    · rw [h2.2.2.2.2.1, h1.2.2.2.2.1]
    · rw [h2.2.2.2.2.2, h1.2.2.2.2.2]

/-! ## Invariants of `SwapSyncStream` -/

theorem swapGetCheck_got {α : Type} {tc w : Nat} {r wr : List α}
    {v : α} {readRest writeRest : List α}
    (h : swapGetCheck tc w r wr = .got v readRest writeRest) :
    (r = v :: readRest ∧ writeRest = wr)
      ∨ (r = [] ∧ wr.reverse = v :: readRest ∧ writeRest = [] ∧ tc ≤ w ∧ w ≤ tc) := by
  cases r with
  | cons a l =>
    unfold swapGetCheck at h
    simp only [SGetCheck.got.injEq] at h
    exact Or.inl ⟨by rw [h.1, h.2.1], h.2.2.symm⟩
  | nil =>
    unfold swapGetCheck at h
    cases hst : isStalledChecked w tc with
    | error m => rw [hst] at h; cases h
    | ok b =>
      rw [hst] at h
      cases b
      · cases h
      · obtain ⟨h1, h2⟩ := isStalled_ok_true hst
        cases hrev : wr.reverse with
        | nil => rw [hrev] at h; cases h
        | cons a l =>
          rw [hrev] at h
          simp only [SGetCheck.got.injEq] at h
          refine Or.inr ⟨rfl, ?_, h.2.2.symm, h1, h2⟩
          rw [h.1, h.2.1]

theorem swapGetCheck_stalledNone {α : Type} {tc w : Nat} {r wr : List α} {wk : Wake}
    (h : swapGetCheck tc w r wr = .stalledNone wk) :
    r = [] ∧ wr = [] ∧ tc ≤ w ∧ w ≤ tc ∧ wk = Wake.all := by
  cases r with
  | cons a l => unfold swapGetCheck at h; cases h
  | nil =>
    unfold swapGetCheck at h
    cases hst : isStalledChecked w tc with
    | error m => rw [hst] at h; cases h
    | ok b =>
      rw [hst] at h
      cases b
      · cases h
      · obtain ⟨h1, h2⟩ := isStalled_ok_true hst
        cases hrev : wr.reverse with
        | nil =>
          rw [hrev] at h
          simp only [SGetCheck.stalledNone.injEq] at h
          have hwr : wr = [] := by
            have := congrArg List.reverse hrev
            simpa using this
          exact ⟨rfl, hwr, h1, h2, h.symm⟩
        | cons a l => rw [hrev] at h; cases h

theorem swapGetCheck_sleep {α : Type} {tc w : Nat} {r wr : List α}
    (h : swapGetCheck tc w r wr = .sleep) : r = [] ∧ w < tc := by
  cases r with
  | cons a l => unfold swapGetCheck at h; cases h
  | nil =>
    unfold swapGetCheck at h
    cases hst : isStalledChecked w tc with
    | error m => rw [hst] at h; cases h
    | ok b =>
      rw [hst] at h
      cases b
      · exact ⟨rfl, isStalled_ok_false hst⟩
      · cases hrev : wr.reverse with
        | nil => rw [hrev] at h; cases h
        | cons a l => rw [hrev] at h; cases h

/-- Exactly-once bookkeeping for the swap stream: delivered, read-buffered
and write-buffered items together are the inserted ones. -/
def sPerm {α : Type} (c : SConf α) : Prop :=
  (c.delivered ++ (c.readElems ++ c.writeElems)).Perm c.inserted

/-- Quiescence of the swap stream: once some `get` has returned `None`,
both buffers are empty. -/
def sQuiet {α : Type} (c : SConf α) : Prop :=
  TStatus.finished ∈ c.threads → (c.readElems = [] ∧ c.writeElems = [])

theorem sStep_perm {α : Type} {c : SConf α} {l : QLabel α} {c' : SConf α}
    (hs : SStep c l c') (hp : sPerm c) : sPerm c' := by
  unfold sPerm at hp ⊢
  cases hs with
  | put v =>
    exact perm_shift_mid c.delivered c.readElems c.writeElems c.inserted [v] hp
  | extendStep vs =>
    exact perm_shift_mid c.delivered c.readElems c.writeElems c.inserted vs.reverse hp
  | enterGot l₁ l₂ v readRest writeRest hth hchk =>
    dsimp only
    rcases swapGetCheck_got hchk with ⟨hr, hw⟩ | ⟨hr, hrev, hw, _, _⟩
    · rw [hr] at hp
      rw [hw]
      exact perm_pop_read c.delivered readRest c.writeElems c.inserted v hp
    · rw [hr] at hp
      rw [hw]
      exact perm_pop_drain c.delivered c.writeElems readRest c.inserted v hrev hp
  | enterNone l₁ l₂ wk hth hchk =>
    exact hp
  | enterSleep l₁ l₂ hth hchk =>
    exact hp
  | wakeGot l₁ l₂ v readRest writeRest hth hchk =>
    dsimp only
    rcases swapGetCheck_got hchk with ⟨hr, hw⟩ | ⟨hr, hrev, hw, _, _⟩
    · rw [hr] at hp
      rw [hw]
      exact perm_pop_read c.delivered readRest c.writeElems c.inserted v hp
    · rw [hr] at hp
      rw [hw]
      exact perm_pop_drain c.delivered c.writeElems readRest c.inserted v hrev hp
  | wakeNone l₁ l₂ wk hth hchk =>
    exact hp
  | wakeSleep l₁ l₂ hth hchk =>
    exact hp

theorem sStep_get_quiet {α : Type} {c : SConf α} {c' : SConf α}
    (hs : SStep c .getL c') (hq : sQuiet c) : sQuiet c' := by
  cases hs with
  | enterGot l₁ l₂ v readRest writeRest hth hchk =>
    intro hfin
    dsimp only at hfin
    obtain ⟨hr, hw⟩ := hq hfin
    exfalso
    rcases swapGetCheck_got hchk with ⟨hr', _⟩ | ⟨_, hrev, _, _, _⟩
    · rw [hr] at hr'
      cases hr'
    · rw [hw] at hrev
      cases hrev
  | enterNone l₁ l₂ wk hth hchk =>
    obtain ⟨hr, hw, _, _, _⟩ := swapGetCheck_stalledNone hchk
    intro _
    exact ⟨hr, hw⟩
  | enterSleep l₁ l₂ hth hchk =>
    intro hfin
    dsimp only at hfin
    simp only [List.mem_append, List.mem_cons] at hfin
    have hfin' : TStatus.finished ∈ c.threads := by
      rw [hth]
      simp only [List.mem_append, List.mem_cons]
      rcases hfin with h | h | h
      · exact Or.inl h
      · cases h
      · exact Or.inr (Or.inr h)
    exact hq hfin'
  | wakeGot l₁ l₂ v readRest writeRest hth hchk =>
    intro hfin
    dsimp only at hfin
    simp only [List.mem_append, List.mem_cons] at hfin
    have hfin' : TStatus.finished ∈ c.threads := by
      rw [hth]
      simp only [List.mem_append, List.mem_cons]
      rcases hfin with h | h | h
      · exact Or.inl h
      · cases h
      · exact Or.inr (Or.inr h)
    obtain ⟨hr, hw⟩ := hq hfin'
    exfalso
    rcases swapGetCheck_got hchk with ⟨hr', _⟩ | ⟨_, hrev, _, _, _⟩
    · rw [hr] at hr'
      cases hr'
    · rw [hw] at hrev
      cases hrev
  | wakeNone l₁ l₂ wk hth hchk =>
    obtain ⟨hr, hw, _, _, _⟩ := swapGetCheck_stalledNone hchk
    intro _
    exact ⟨hr, hw⟩
  | wakeSleep l₁ l₂ hth hchk =>
    exact hq

theorem sStep_len {α : Type} {c : SConf α} {l : QLabel α} {c' : SConf α}
    (hs : SStep c l c') :
    c'.threadCount = c.threadCount ∧ c'.threads.length = c.threads.length := by
  cases hs with
  | put v => exact ⟨rfl, rfl⟩
  | extendStep vs => exact ⟨rfl, rfl⟩
  | enterGot l₁ l₂ v readRest writeRest hth hchk => exact ⟨rfl, rfl⟩
  | enterNone l₁ l₂ wk hth hchk =>
    refine ⟨rfl, ?_⟩
    rw [hth]
    simp
  | enterSleep l₁ l₂ hth hchk =>
    refine ⟨rfl, ?_⟩
    rw [hth]
    simp
  | wakeGot l₁ l₂ v readRest writeRest hth hchk =>
    refine ⟨rfl, ?_⟩
    rw [hth]
    simp
  | wakeNone l₁ l₂ wk hth hchk =>
    refine ⟨rfl, ?_⟩
    rw [hth]
    simp
  | wakeSleep l₁ l₂ hth hchk => exact ⟨rfl, rfl⟩

/-- Which public operation a label stands for. -/
def isGetLbl {α : Type} : QLabel α → Bool
  | .getL => true
  | _ => false

/-- The claim's producer/consumer phasing: all `put`/`extend` critical
sections happen before all `get` critical sections. -/
def Phased {α : Type} (ls : List (QLabel α)) : Prop :=
  ∃ ps gs, ls = ps ++ gs ∧ (∀ l ∈ ps, isGetLbl l = false) ∧ (∀ l ∈ gs, isGetLbl l = true)

theorem strace_cons_inv {α : Type} {c : SConf α} {l : QLabel α} {ls : List (QLabel α)}
    {c'' : SConf α} (h : STrace c (l :: ls) c'') :
    ∃ cm, SStep c l cm ∧ STrace cm ls c'' := by
  cases h
  rename_i cm hstep htrace
  exact ⟨cm, hstep, htrace⟩

theorem strace_append {α : Type} (ps gs : List (QLabel α)) :
    ∀ {c c'' : SConf α}, STrace c (ps ++ gs) c'' →
      ∃ mid, STrace c ps mid ∧ STrace mid gs c'' := by
  induction ps with
  | nil =>
    intro c c'' h
    exact ⟨c, STrace.nil c, h⟩
  | cons l ps ih =>
    intro c c'' h
    obtain ⟨cm, hstep, htrace⟩ := strace_cons_inv h
    obtain ⟨mid, h1, h2⟩ := ih htrace
    exact ⟨mid, STrace.cons _ _ _ _ _ hstep h1, h2⟩

theorem strace_puts {α : Type} {c : SConf α} {ps : List (QLabel α)} {c' : SConf α}
    (ht : STrace c ps c') (hp : ∀ l ∈ ps, isGetLbl l = false) :
    c'.threads = c.threads ∧ c'.readElems = c.readElems := by
  induction ht with
  | nil c => exact ⟨rfl, rfl⟩
  | cons c l cm ls c'' h ht ih =>
    have hl : isGetLbl l = false := hp l (List.mem_cons_self l ls)
    have hrest : ∀ l' ∈ ls, isGetLbl l' = false := fun l' hm => hp l' (List.mem_cons_of_mem l hm)
    have hmid : cm.threads = c.threads ∧ cm.readElems = c.readElems := by
      cases h with
      | put v => exact ⟨rfl, rfl⟩
      | extendStep vs => exact ⟨rfl, rfl⟩
      | enterGot l₁ l₂ v readRest writeRest hth hchk => cases hl
      | enterNone l₁ l₂ wk hth hchk => cases hl
      | enterSleep l₁ l₂ hth hchk => cases hl
      | wakeGot l₁ l₂ v readRest writeRest hth hchk => cases hl
      | wakeNone l₁ l₂ wk hth hchk => cases hl
      | wakeSleep l₁ l₂ hth hchk => cases hl
    have h2 := ih hrest
    exact ⟨h2.1.trans hmid.1, h2.2.trans hmid.2⟩

theorem strace_gets_quiet {α : Type} {c : SConf α} {gs : List (QLabel α)} {c' : SConf α}
    (ht : STrace c gs c') (hp : ∀ l ∈ gs, isGetLbl l = true) :
    sQuiet c → sQuiet c' := by
  induction ht with
  | nil c => exact fun h => h
  | cons c l cm ls c'' h ht ih =>
    intro hq
    have hl : isGetLbl l = true := hp l (List.mem_cons_self l ls)
    have hget : l = QLabel.getL := by
      cases l with
      | putL v => cases hl
      | extendL vs => cases hl
      | getL => rfl
    rw [hget] at h
    exact ih (fun l' hm => hp l' (List.mem_cons_of_mem l hm)) (sStep_get_quiet h hq)

theorem strace_perm {α : Type} {c : SConf α} {ls : List (QLabel α)} {c' : SConf α}
    (ht : STrace c ls c') : sPerm c → sPerm c' := by
  induction ht with
  | nil c => exact fun h => h
  | cons c l cm ls c'' h ht ih => exact fun hp => ih (sStep_perm h hp)

theorem strace_len {α : Type} {c : SConf α} {ls : List (QLabel α)} {c' : SConf α}
    (ht : STrace c ls c') :
    c'.threadCount = c.threadCount ∧ c'.threads.length = c.threads.length := by
  induction ht with
  | nil c => exact ⟨rfl, rfl⟩
  | cons c l cm ls c'' h ht ih =>
    have h1 := sStep_len h
    exact ⟨ih.1.trans h1.1, ih.2.trans h1.2⟩

/-! ## Lemmas about the traversal worker -/

theorem finderScan_enq (pat : Pattern) (md : Option Nat) (item : WItem) :
    ∀ (es : List FsEntry) (cands : List WItem) (pr : List DirPath) (enq : List WItem),
      finderScan pat md item es cands = .ok pr enq →
      ∀ it ∈ enq,
        it ∈ cands ∨ (it.depth = item.depth + 1 ∧ exceedsDepth md it.depth = false) := by
  intro es
  induction es with
  | nil =>
    intro cands pr enq h it hit
    unfold finderScan at h
    simp only [FOutcome.ok.injEq] at h
    rw [← h.2] at hit
    exact Or.inl hit
  | cons e rest ih =>
    intro cands pr enq h it hit
    unfold finderScan at h
    cases hn : e.name with
    | none =>
      rw [hn] at h
      cases h
    | some nm =>
      rw [hn] at h
      dsimp only at h
      split at h
      · simp only [FOutcome.ok.injEq] at h
        rw [← h.2] at hit
        cases hit
      · split at h
        · rename_i hdir
          have hrec := ih _ _ _ h it hit
          rcases hrec with hc | hnew
          · rcases List.mem_append.mp hc with hc1 | hc2
            · exact Or.inl hc1
            · have heq : it = { path := item.path ++ [nm], depth := item.depth + 1 } := by
                simpa using hc2
              refine Or.inr ⟨?_, ?_⟩
              · rw [heq]
              · rw [heq]
                have hb := (Bool.and_eq_true _ _).mp hdir
                simpa using hb.2
          · exact Or.inr hnew
        · exact ih _ _ _ h it hit

/-- The depth bound maintained by the whole search when a max depth is
configured. -/
def depthOk (k : Nat) (c : FinderConf) : Prop :=
  (∀ it ∈ c.pending, it.depth ≤ k) ∧ (∀ pr ∈ c.printed, pr.2 ≤ k)

theorem fstep_depth {fsys : DirPath → DirListing} {pat : Pattern} {k : Nat}
    {c c' : FinderConf} (hs : FStep fsys pat (some k) c c') (h : depthOk k c) :
    depthOk k c' := by
  cases hs with
  | process item pr enq hmem hout =>
    constructor
    · intro it hit
      dsimp only at hit
      rcases List.mem_append.mp hit with h1 | h2
      · exact h.1 it (List.erase_subset _ _ h1)
      · cases hfs : fsys item.path with
        | none =>
          rw [hfs] at hout
          unfold finderStep at hout
          simp only [FOutcome.ok.injEq] at hout
          rw [← hout.2] at h2
          cases h2
        | some raw =>
          rw [hfs] at hout
          unfold finderStep at hout
          dsimp only at hout
          have hq := finderScan_enq pat (some k) item _ _ _ _ hout it h2
          rcases hq with hc | ⟨hd, hex⟩
          · cases hc
          · unfold exceedsDepth at hex
            have hnd : ¬ (it.depth > k) := by simpa using hex
            omega
    · intro pr' hpr
      dsimp only at hpr
      rcases List.mem_append.mp hpr with h1 | h2
      · exact h.2 pr' h1
      · obtain ⟨p, hp, rfl⟩ := List.mem_map.mp h2
        exact h.1 item hmem

theorem freach_depth {fsys : DirPath → DirListing} {pat : Pattern} {k : Nat}
    {a b : FinderConf} (h : FReach fsys pat (some k) a b) :
    depthOk k a → depthOk k b := by
  induction h with
  | refl => exact fun h => h
  | tail b c h hs ih => exact fun hd => fstep_depth hs (ih hd)

theorem finderStep_single (pat : Pattern) (md : Option Nat) (item : WItem)
    (nm : String) (dm : Option Bool) :
    (finderStep pat md item (some [some { name := some nm, isDir := dm }])
        = .ok [item.path] [])
      ↔ regexIsMatch pat nm = true := by
  constructor
  · intro h
    by_cases hm : regexIsMatch pat nm = true
    · exact hm
    · exfalso
      simp only [finderStep, List.filterMap_cons, List.filterMap_nil, id_eq, finderScan] at h
      rw [if_neg hm] at h
      split at h
      · simp at h
      · simp at h
  · intro hm
    simp only [finderStep, List.filterMap_cons, List.filterMap_nil, id_eq, finderScan]
    rw [if_pos hm]

/-! ## Exactly-once delivery -/

theorem finished_mem_of_allfin {l : List TStatus}
    (hfin : ∀ s ∈ l, s = TStatus.finished) (hn : l.length ≠ 0) :
    TStatus.finished ∈ l := by
  cases hl : l with
  | nil =>
    rw [hl] at hn
    simp at hn
  | cons a t =>
    have hma : a ∈ l := by
      rw [hl]
      exact List.mem_cons_self a t
    have heq := hfin a hma
    rw [← heq]
    exact List.mem_cons_self a t

theorem mutex_allfin_delivered {α : Type} {tc n : Nat} {ls : List (QLabel α)} {c : MConf α}
    (ht : MTrace (mInit α tc n) ls c)
    (hfin : ∀ s ∈ c.threads, s = TStatus.finished) (hn : 1 ≤ n) :
    c.delivered.Perm c.inserted := by
  obtain ⟨⟨ha, hb, hc, hd⟩, htc, hlen⟩ := mTrace_preserve ht (mInit_good α tc n)
  have hlen' : c.threads.length = n := by simpa [mInit] using hlen
  have hmem : TStatus.finished ∈ c.threads := by
    refine finished_mem_of_allfin hfin ?_
    omega
  have hstall := hc hmem
  have hempty := hb hstall
  rw [hempty] at hd
  simpa using hd

theorem swap_allfin_delivered {α : Type} {tc n : Nat} {ls : List (QLabel α)} {c : SConf α}
    (ht : STrace (sInit α tc n) ls c) (hph : Phased ls)
    (hfin : ∀ s ∈ c.threads, s = TStatus.finished) (hn : 1 ≤ n) :
    c.delivered.Perm c.inserted := by
  obtain ⟨ps, gs, rfl, hps, hgs⟩ := hph
  obtain ⟨mid, h1, h2⟩ := strace_append ps gs ht
  have hmidthreads := (strace_puts h1 hps).1
  have hquiet_mid : sQuiet mid := by
    intro hfin0
    exfalso
    rw [hmidthreads] at hfin0
    have hfin1 : TStatus.finished ∈ List.replicate n TStatus.idle := by
      simp only [sInit] at hfin0
      exact hfin0
    have := List.eq_of_mem_replicate hfin1
    cases this
  have hquiet := strace_gets_quiet h2 hgs hquiet_mid
  have hperm : sPerm c := strace_perm ht (by simp [sPerm, sInit])
  have hlen := (strace_len ht).2
  have hlen' : c.threads.length = n := by simpa [sInit] using hlen
  have hmem : TStatus.finished ∈ c.threads := by
    refine finished_mem_of_allfin hfin ?_
    omega
  obtain ⟨hr, hw⟩ := hquiet hmem
  unfold sPerm at hperm
  rw [hr, hw] at hperm
  simpa using hperm

/-! ## Claim theorems -/

/-- C1: for any phased execution (all `put`/`extend` critical sections from
the producers before all `get` critical sections from the consumers) of
either `SyncStream` implementation in which every one of the (at least
one) worker threads has received the empty result from `get`, the
multiset of items delivered by `get` equals exactly the multiset of items
inserted by `put`/`extend`: no item is lost and no item is delivered
twice. -/
theorem spec_c1_exactly_once {α : Type} (tc n : Nat)
    (ls1 : List (QLabel α)) (c1 : MConf α) (ls2 : List (QLabel α)) (c2 : SConf α)
    (ht1 : MTrace (mInit α tc n) ls1 c1) (_hp1 : Phased ls1)
    (hf1 : ∀ s ∈ c1.threads, s = TStatus.finished)
    (ht2 : STrace (sInit α tc n) ls2 c2) (hp2 : Phased ls2)
    (hf2 : ∀ s ∈ c2.threads, s = TStatus.finished)
    (hn : 1 ≤ n) :
    (c1.delivered : Multiset α) = (c1.inserted : Multiset α)
      ∧ (c2.delivered : Multiset α) = (c2.inserted : Multiset α) :=
  ⟨Multiset.coe_eq_coe.mpr (mutex_allfin_delivered ht1 hf1 hn),
   Multiset.coe_eq_coe.mpr (swap_allfin_delivered ht2 hp2 hf2 hn)⟩

theorem spec_c1_exactly_once_witness :
    (([5] : List ℕ) : Multiset ℕ) = (([5] : List ℕ) : Multiset ℕ)
      ∧ (([5] : List ℕ) : Multiset ℕ) = (([5] : List ℕ) : Multiset ℕ) := by
  have t1 : MTrace (mInit ℕ 1 1) [QLabel.putL 5, QLabel.getL, QLabel.getL]
      ⟨1, 1, [], [TStatus.finished], [5], [5]⟩ :=
    MTrace.cons _ _ ⟨1, 0, [5], [TStatus.idle], [5], []⟩ _ _
      (MStep.put _ 5 _ rfl)
      (MTrace.cons _ _ ⟨1, 0, [], [TStatus.idle], [5], [5]⟩ _ _
        (MStep.enterGot _ [] [] 5 [] rfl rfl)
        (MTrace.cons _ _ ⟨1, 1, [], [TStatus.finished], [5], [5]⟩ _ _
          (MStep.enterNone _ [] [] Wake.all rfl rfl)
          (MTrace.nil _)))
  have t2 : STrace (sInit ℕ 1 1) [QLabel.putL 5, QLabel.getL, QLabel.getL]
      ⟨1, 1, [], [], [TStatus.finished], [5], [5]⟩ :=
    STrace.cons _ _ ⟨1, 0, [], [5], [TStatus.idle], [5], []⟩ _ _
      (SStep.put _ 5)
      (STrace.cons _ _ ⟨1, 0, [], [], [TStatus.idle], [5], [5]⟩ _ _
        (SStep.enterGot _ [] [] 5 [] [] rfl rfl)
        (STrace.cons _ _ ⟨1, 1, [], [], [TStatus.finished], [5], [5]⟩ _ _
          (SStep.enterNone _ [] [] Wake.all rfl rfl)
          (STrace.nil _)))
  have hph : Phased [QLabel.putL (5 : ℕ), QLabel.getL, QLabel.getL] :=
    ⟨[QLabel.putL 5], [QLabel.getL, QLabel.getL], rfl,
      by intro l hl; simp at hl; subst hl; rfl,
      by intro l hl; simp at hl; subst hl; rfl⟩
  exact spec_c1_exactly_once 1 1 _ _ _ _ t1 hph (by simp) t2 hph (by simp) (by omega)

/-- C2: `put`/`extend` on `MutexSyncStream` enqueue the given values, and
panic exactly when the queue is stalled in the spec's sense —
`waiting_count ≥ thread_count` and no buffered items — in any reachable
state of at most `thread_count` protocol-following workers; and whenever
some worker is outside `get` (the only situation in which a worker can
call `put`/`extend`), the operations do not panic, so under correct
worker usage the panic is never reached. -/
theorem spec_c2_put_panic {α : Type} (tc n : Nat) (ls : List (QLabel α)) (c : MConf α)
    (v : α) (vs : List α)
    (ht : MTrace (mInit α tc n) ls c) (hn : n ≤ tc) :
    ((∃ m, mutexPut c v = .error m)
        ↔ (c.threadCount ≤ c.waitingCount ∧ c.elements = []))
    ∧ ((∃ m, mutexExtend c vs = .error m)
        ↔ (c.threadCount ≤ c.waitingCount ∧ c.elements = []))
    ∧ (TStatus.idle ∈ c.threads →
        ∃ c', mutexPut c v = .ok c'
          ∧ c'.elements = v :: c.elements ∧ c'.inserted = v :: c.inserted)
    ∧ (TStatus.idle ∈ c.threads →
        ∃ c', mutexExtend c vs = .ok c'
          ∧ c'.elements = vs.reverse ++ c.elements
          ∧ c'.inserted = vs.reverse ++ c.inserted) := by
  obtain ⟨⟨ha, hb, hc, hd⟩, htc, hlen⟩ := mTrace_preserve ht (mInit_good α tc n)
  have hlen' : c.threads.length = n := by simpa [mInit] using hlen
  have htc' : c.threadCount = tc := by simpa [mInit] using htc
  have hidle_lt : TStatus.idle ∈ c.threads → c.waitingCount < c.threadCount := by
    intro hidle
    have h1 := countP_lt_of_idle_mem hidle
    omega
  refine ⟨⟨?_, ?_⟩, ⟨?_, ?_⟩, ?_, ?_⟩
  · intro h
    have hst := mutexPut_error_stalled h
    exact ⟨hst, hb hst⟩
  · intro h
    exact mutexPut_error_of_stalled c v h.1
  · intro h
    have hst := mutexExtend_error_stalled h
    exact ⟨hst, hb hst⟩
  · intro h
    exact mutexExtend_error_of_stalled c vs h.1
  · intro hidle
    have hok := isStalled_of_lt (hidle_lt hidle)
    unfold mutexPut
    rw [hok]
    exact ⟨_, rfl, rfl, rfl⟩
  · intro hidle
    have hok := isStalled_of_lt (hidle_lt hidle)
    unfold mutexExtend
    rw [hok]
    exact ⟨_, rfl, rfl, rfl⟩

theorem spec_c2_put_panic_witness :
    ∃ c', mutexPut (mInit ℕ 1 1) 7 = .ok c'
      ∧ c'.elements = 7 :: (mInit ℕ 1 1).elements
      ∧ c'.inserted = 7 :: (mInit ℕ 1 1).inserted := by
  have h := spec_c2_put_panic 1 1 [] (mInit ℕ 1 1) 7 [8] (MTrace.nil _) (by omega)
  exact h.2.2.1 (by simp [mInit])

/-- C9: in every state reachable by at most `thread_count` workers each
following the `get` protocol, `waiting_count ≤ thread_count`; moreover
whenever a worker is still outside `get` even the incremented count
checked inside a fresh `get` stays within the bound, so the internal
abort of `is_stalled` for `waiting_count > thread_count` is unreachable. -/
theorem spec_c9_waiting_bound {α : Type} (tc n : Nat) (ls : List (QLabel α)) (c : MConf α)
    (ht : MTrace (mInit α tc n) ls c) (hn : n ≤ tc) :
    c.waitingCount ≤ c.threadCount
    ∧ (TStatus.idle ∈ c.threads → c.waitingCount + 1 ≤ c.threadCount) := by
  obtain ⟨⟨ha, hb, hc, hd⟩, htc, hlen⟩ := mTrace_preserve ht (mInit_good α tc n)
  have hlen' : c.threads.length = n := by simpa [mInit] using hlen
  have htc' : c.threadCount = tc := by simpa [mInit] using htc
  have hle := countP_le_len c.threads
  constructor
  · omega
  · intro hidle
    have h1 := countP_lt_of_idle_mem hidle
    omega

theorem spec_c9_waiting_bound_witness :
    (⟨1, 1, [], [TStatus.finished], [5], [5]⟩ : MConf ℕ).waitingCount
        ≤ (⟨1, 1, [], [TStatus.finished], [5], [5]⟩ : MConf ℕ).threadCount := by
  have t1 : MTrace (mInit ℕ 1 1) [QLabel.putL 5, QLabel.getL, QLabel.getL]
      ⟨1, 1, [], [TStatus.finished], [5], [5]⟩ :=
    MTrace.cons _ _ ⟨1, 0, [5], [TStatus.idle], [5], []⟩ _ _
      (MStep.put _ 5 _ rfl)
      (MTrace.cons _ _ ⟨1, 0, [], [TStatus.idle], [5], [5]⟩ _ _
        (MStep.enterGot _ [] [] 5 [] rfl rfl)
        (MTrace.cons _ _ ⟨1, 1, [], [TStatus.finished], [5], [5]⟩ _ _
          (MStep.enterNone _ [] [] Wake.all rfl rfl)
          (MTrace.nil _)))
  exact (spec_c9_waiting_bound 1 1 _ _ t1 (by omega)).1

/-- C10: once any `get` on `MutexSyncStream` has returned the empty
result (some protocol-following worker is finished), the stream is
permanently finished: in every subsequent state the waiting count stays
at or above `thread_count` (the stall branch never decremented it), the
buffer stays empty, no later critical section delivers an item (the ghost
`delivered` never changes again), and every `put`/`extend` panics. -/
theorem spec_c10_perm_finished {α : Type} (tc n : Nat) (ls ls' : List (QLabel α))
    (c d : MConf α)
    (ht : MTrace (mInit α tc n) ls c)
    (hfin : TStatus.finished ∈ c.threads)
    (ht' : MTrace c ls' d) :
    c.threadCount ≤ d.waitingCount ∧ d.elements = [] ∧ d.delivered = c.delivered
    ∧ (∀ w, ∃ m, mutexPut d w = .error m)
    ∧ (∀ ws, ∃ m, mutexExtend d ws = .error m)
    ∧ (∀ lbl e, MStep d lbl e → e.delivered = d.delivered) := by
  have hg := (mTrace_preserve ht (mInit_good α tc n)).1
  obtain ⟨⟨hg', hfin'⟩, hw, he, hdel, hins, htc⟩ := mTrace_stalled ht' ⟨hg, hfin⟩
  obtain ⟨ha', hb', hc', hd'⟩ := hg'
  have hstall' : d.threadCount ≤ d.waitingCount := hc' hfin'
  have hempty' : d.elements = [] := hb' hstall'
  refine ⟨by omega, hempty', hdel, ?_, ?_, ?_⟩
  · intro w
    exact mutexPut_error_of_stalled d w hstall'
  · intro ws
    exact mutexExtend_error_of_stalled d ws hstall'
  · intro lbl e hsd
    exact (mStep_stalled hsd ⟨⟨ha', hb', hc', hd'⟩, hfin'⟩).2.2.2.1

theorem spec_c10_perm_finished_witness :
    (1 : Nat) ≤ (⟨1, 1, [], [TStatus.finished], [], []⟩ : MConf ℕ).waitingCount
    ∧ (⟨1, 1, [], [TStatus.finished], [], []⟩ : MConf ℕ).elements = []
    ∧ (⟨1, 1, [], [TStatus.finished], [], []⟩ : MConf ℕ).delivered
        = (⟨1, 1, [], [TStatus.finished], [], []⟩ : MConf ℕ).delivered
    ∧ (∀ w, ∃ m, mutexPut (⟨1, 1, [], [TStatus.finished], [], []⟩ : MConf ℕ) w = .error m)
    ∧ (∀ ws, ∃ m, mutexExtend (⟨1, 1, [], [TStatus.finished], [], []⟩ : MConf ℕ) ws = .error m)
    ∧ (∀ lbl e, MStep (⟨1, 1, [], [TStatus.finished], [], []⟩ : MConf ℕ) lbl e →
        e.delivered = (⟨1, 1, [], [TStatus.finished], [], []⟩ : MConf ℕ).delivered) := by
  have t1 : MTrace (mInit ℕ 1 1) [QLabel.getL] ⟨1, 1, [], [TStatus.finished], [], []⟩ :=
    MTrace.cons _ _ ⟨1, 1, [], [TStatus.finished], [], []⟩ _ _
      (MStep.enterNone _ [] [] Wake.all rfl rfl)
      (MTrace.nil _)
  exact spec_c10_perm_finished 1 1 [QLabel.getL] [] _ _ t1 (by simp) (MTrace.nil _)

/-- C3 (counterexample): `SearchPool::get_candidate` in `main.rs`, on
detecting a stall and before returning the empty result, performs a
single `notify_one` wake, not the broadcast the claim requires of every
implementation in the codebase. -/
theorem spec_c3_counterexample :
    poolGetCheck 1 1 ([] : List ℕ) = PGetCheck.stalledNone Wake.one
      ∧ Wake.one ≠ Wake.all := by
  constructor
  · rfl
  · decide

/-- C3 (amended): the stall branch of `get` broadcasts (`notify_all`) in
both `SyncStream` implementations of `sync_reader.rs`, while the stall
branch of `SearchPool::get_candidate` in `main.rs` performs a single
`notify_one` wake instead (its woken worker re-notifies in a relay). -/
theorem spec_c3_amended_broadcast :
    (∀ (α : Type) (tc w : Nat) (es : List α) (wk : Wake),
        mutexGetCheck tc w es = .stalledNone wk → wk = Wake.all)
    ∧ (∀ (α : Type) (tc w : Nat) (r wr : List α) (wk : Wake),
        swapGetCheck tc w r wr = .stalledNone wk → wk = Wake.all)
    ∧ (∀ (α : Type) (nc w : Nat) (cs : List α) (wk : Wake),
        poolGetCheck nc w cs = .stalledNone wk → wk = Wake.one) := by
  refine ⟨?_, ?_, ?_⟩
  · intro α tc w es wk h
    exact (mutexGetCheck_stalledNone h).2.2.2
  · intro α tc w r wr wk h
    exact (swapGetCheck_stalledNone h).2.2.2.2
  · intro α nc w cs wk h
    unfold poolGetCheck at h
    split at h
    · cases h
    · cases cs with
      | nil =>
        simp only [PGetCheck.stalledNone.injEq] at h
        exact h.symm
      | cons a l => cases h

theorem spec_c3_amended_broadcast_witness :
    Wake.all = Wake.all ∧ Wake.all = Wake.all ∧ Wake.one = Wake.one :=
  ⟨spec_c3_amended_broadcast.1 ℕ 1 1 [] Wake.all rfl,
   spec_c3_amended_broadcast.2.1 ℕ 1 1 [] [] Wake.all rfl,
   spec_c3_amended_broadcast.2.2 ℕ 1 1 [] Wake.one rfl⟩

/-- A directory listing with two entries whose names both equal the
sentinel "TARGET". -/
def twoTargetListing : DirListing :=
  some [some { name := some "TARGET", isDir := some false },
        some { name := some "TARGET", isDir := some false }]

/-- C4: on a directory with two matching entries, both workers stop at
the first match, enqueue nothing and record exactly one result — but the
`main.rs` worker records the matching *entry's* path
(`put_result(sub_path)`, main.rs:101), not the containing directory,
while `finder_worker` (worker.rs:50) prints the containing directory as
the claim and spec state. -/
theorem spec_c4_records_entry_path :
    mainWorkerStep "TARGET" ["root", "a"] twoTargetListing
        = MainOutcome.ok [["root", "a", "TARGET"]] []
    ∧ (["root", "a", "TARGET"] : DirPath) ≠ ["root", "a"]
    ∧ finderStep (fun s => s == "TARGET") none { path := ["root", "a"], depth := 0 }
        twoTargetListing = FOutcome.ok [["root", "a"]] [] := by
  refine ⟨rfl, by decide, by decide⟩

/-- C5: the depth cutoff of `finder_worker`: `exceeds_depth` holds exactly
above the configured max depth and never without one or at the root;
children are enqueued exactly at `depth + 1` and never beyond the max
depth, so a directory at the max depth is expanded into no children; and
every result produced by any run of the search on roots at depth 0 comes
from a work item within the max depth. -/
theorem spec_c5_depth_cutoff :
    (∀ (k d : Nat), exceedsDepth (some k) d = true ↔ k < d)
    ∧ (∀ d : Nat, exceedsDepth none d = false)
    ∧ (∀ md : Option Nat, exceedsDepth md 0 = false)
    ∧ (∀ (pat : Pattern) (k : Nat) (item : WItem) (listing : DirListing)
        (pr : List DirPath) (enq : List WItem),
        finderStep pat (some k) item listing = .ok pr enq →
        ∀ it ∈ enq, it.depth = item.depth + 1 ∧ it.depth ≤ k)
    ∧ (∀ (pat : Pattern) (k : Nat) (item : WItem) (listing : DirListing)
        (pr : List DirPath) (enq : List WItem),
        item.depth = k → finderStep pat (some k) item listing = .ok pr enq → enq = [])
    ∧ (∀ (fsys : DirPath → DirListing) (pat : Pattern) (k : Nat)
        (roots : List WItem) (c : FinderConf),
        (∀ it ∈ roots, it.depth = 0) →
        FReach fsys pat (some k) { pending := roots, printed := [] } c →
        ∀ pr ∈ c.printed, pr.2 ≤ k) := by
  have henq : ∀ (pat : Pattern) (k : Nat) (item : WItem) (listing : DirListing)
      (pr : List DirPath) (enq : List WItem),
      finderStep pat (some k) item listing = .ok pr enq →
      ∀ it ∈ enq, it.depth = item.depth + 1 ∧ it.depth ≤ k := by
    intro pat k item listing pr enq h it hit
    cases listing with
    | none =>
      unfold finderStep at h
      simp only [FOutcome.ok.injEq] at h
      rw [← h.2] at hit
      cases hit
    | some raw =>
      unfold finderStep at h
      dsimp only at h
      have hq := finderScan_enq pat (some k) item _ _ _ _ h it hit
      rcases hq with hc | ⟨hd, hex⟩
      · cases hc
      · refine ⟨hd, ?_⟩
        unfold exceedsDepth at hex
        have hnd : ¬ (it.depth > k) := by simpa using hex
        omega
  refine ⟨?_, fun _ => rfl, ?_, henq, ?_, ?_⟩
  · intro k d
    unfold exceedsDepth
    simp
  · intro md
    cases md with
    | none => rfl
    | some k =>
      unfold exceedsDepth
      simp
  · intro pat k item listing pr enq hdep h
    cases henq0 : enq with
    | nil => rfl
    | cons a t =>
      exfalso
      have hmem : a ∈ enq := by
        rw [henq0]
        exact List.mem_cons_self a t
      have := henq pat k item listing pr enq h a hmem
      omega
  · intro fsys pat k roots c hroots hreach pr hpr
    have h0 : depthOk k { pending := roots, printed := [] } := by
      constructor
      · intro it hit
        have := hroots it hit
        omega
      · intro pr' hpr'
        cases hpr'
    exact (freach_depth hreach h0).2 pr hpr

theorem spec_c5_depth_cutoff_witness :
    (exceedsDepth (some 2) 3 = true ↔ 2 < 3)
    ∧ ((⟨["r", "a"], 1⟩ : WItem).depth = (⟨["r"], 0⟩ : WItem).depth + 1
        ∧ (⟨["r", "a"], 1⟩ : WItem).depth ≤ 2) := by
  constructor
  · exact spec_c5_depth_cutoff.1 2 3
  · exact spec_c5_depth_cutoff.2.2.2.1 (fun _ => false) 2 ⟨["r"], 0⟩
      (some [some ⟨some "a", some true⟩]) [] [⟨["r", "a"], 1⟩] (by decide)
      ⟨["r", "a"], 1⟩ (by simp)

/-- C6 (counterexample): in `main.rs`, a work item whose directory cannot
be listed is not skipped: `read_dir()?` (main.rs:93) propagates the error
out of `worker`, which is fatal to the worker thread and the whole
search, contradicting the claim for that implementation. -/
theorem spec_c6_counterexample :
    mainWorkerStep "TARGET" ["root"] none = MainOutcome.fatal
      ∧ MainOutcome.fatal ≠ MainOutcome.ok [] [] := by
  constructor
  · rfl
  · decide

/-- C6 (amended): `finder_worker` (worker.rs:40-43) skips a directory
that cannot be listed — no result, no children, no error, the worker
loop continues with the next item — while the `main.rs` worker instead
propagates the error, panicking its thread and failing the whole search
(an `.ok` outcome is the one that lets a worker continue; `fatal` ends
it). -/
theorem spec_c6_amended_unreadable_dir :
    (∀ (pat : Pattern) (md : Option Nat) (item : WItem),
        finderStep pat md item none = FOutcome.ok [] [])
    ∧ (∀ (t : String) (p : DirPath), mainWorkerStep t p none = MainOutcome.fatal) :=
  ⟨fun _ _ _ => rfl, fun _ _ => rfl⟩

/-- A listing whose first surviving entry has an undecodable name and
whose second entry matches the sentinel "TARGET". -/
def undecodableListing : DirListing :=
  some [some { name := none, isDir := some false },
        some { name := some "TARGET", isDir := some false }]

/-- C7 (counterexample): an entry whose name cannot be decoded is not
skipped: `finder_worker` panics on it (`expect`, worker.rs:48) — so the
matching entry right after it is never reached — and the `main.rs` worker
turns it into a fatal error (`is_target`'s `?`, main.rs:100 and 56-63). -/
theorem spec_c7_counterexample :
    finderStep (fun s => s == "TARGET") none { path := ["root"], depth := 0 }
        undecodableListing = FOutcome.panicked "failed to convert OsStr -> str"
    ∧ finderStep (fun s => s == "TARGET") none { path := ["root"], depth := 0 }
        undecodableListing ≠ FOutcome.ok [["root"]] []
    ∧ mainWorkerStep "TARGET" ["root"] undecodableListing = MainOutcome.fatal := by
  refine ⟨rfl, by decide, rfl⟩

/-- C7 (amended): an undecodable entry name is fatal, not skipped: at such
an entry `finder_worker`'s scan panics with the `expect` message whatever
comes before or after, and the `main.rs` scan returns the error that
panics its worker thread and fails the search. -/
theorem spec_c7_amended_undecodable_name :
    (∀ (pat : Pattern) (md : Option Nat) (item : WItem) (dm : Option Bool)
        (rest : List FsEntry) (cands : List WItem),
        finderScan pat md item ({ name := none, isDir := dm } :: rest) cands
          = FOutcome.panicked "failed to convert OsStr -> str")
    ∧ (∀ (t : String) (p : DirPath) (dm : Option Bool) (rest : List FsEntry)
        (cands : List DirPath),
        mainScan t p ({ name := none, isDir := dm } :: rest) cands = MainOutcome.fatal) :=
  ⟨fun _ _ _ _ _ _ => rfl, fun _ _ _ _ _ => rfl⟩

/-- C8 (counterexample): with the caller-compiled literal pattern "abc"
(whose language contains exactly "abc") and entry name "xabcx", the
pattern matches only a proper substring of the name — the full name is
not in the language — yet `is_match` reports a match and `finder_worker`
reports the directory as a hit. -/
theorem spec_c8_counterexample :
    regexIsMatch (fun s => s == "abc") "xabcx" = true
    ∧ (fun s : String => s == "abc") "xabcx" = false
    ∧ (fun s : String => s == "abc") "abc" = true
    ∧ finderStep (fun s => s == "abc") none { path := ["d"], depth := 0 }
        (some [some { name := some "xabcx", isDir := some false }])
        = FOutcome.ok [["d"]] [] := by
  refine ⟨by decide, by decide, by decide, by decide⟩

/-- C8 (amended): the sentinel matcher of `finder_worker` is a
substring matcher, not a full-string matcher: `is_match` holds iff some
contiguous substring of the entry name satisfies the pattern, and the
worker reports a directory with such an entry as a hit; a full-string
discipline would hold only if the caller supplied an already-anchored
pattern (no code in the repository wraps or anchors the pattern). -/
theorem spec_c8_amended_substring_match :
    (∀ (pat : Pattern) (nm : String),
        regexIsMatch pat nm = true ↔ ∃ sub ∈ substrings nm, pat sub = true)
    ∧ (∀ (pat : Pattern) (md : Option Nat) (item : WItem) (nm : String) (dm : Option Bool),
        finderStep pat md item (some [some { name := some nm, isDir := dm }])
            = FOutcome.ok [item.path] []
          ↔ regexIsMatch pat nm = true) := by
  constructor
  · intro pat nm
    unfold regexIsMatch
    simp [List.any_eq_true]
  · intro pat md item nm dm
    exact finderStep_single pat md item nm dm
